import Mathlib

/-!
Shallow embedding of `src/lzw.py` (LZW compression tool).

Modelling conventions:
* Python strings are `List α` over a symbol type `α` with decidable equality
  (the reference domain is `Char`; the file layer below is specialised to
  `Char`).
* Python dicts are insertion-ordered association lists with unique keys;
  `d[k]` lookup is `find?` (first match), assignment `d[k] = v` is `insertA`
  (update in place if the key is present, otherwise append), which is exactly
  the observable behaviour of a Python dict.
* Python exceptions (`ValueError` from `max()` on an empty dict, `KeyError`,
  `IndexError` from `pop(0)` / `s[0]` on empty data, `struct.error`) are
  modelled with `Option`: `none` means the call raises.
* `list(set(...))` enumerates the distinct symbols in an unspecified but
  deterministic order; `uniqueChars` fixes one deterministic order, which is a
  faithful model because no downstream behaviour depends on the order chosen.
* The `verbose` flag of every function only prints diagnostics and has no
  effect on any returned value, so it is dropped from the embedding.
-/

set_option maxHeartbeats 4000000
set_option maxRecDepth 4000
set_option linter.unusedSectionVars false
set_option linter.unusedVariables false

namespace LZW

variable {α : Type} [DecidableEq α]

/-- Python dict lookup `d[key]` over an insertion-ordered association list
(first match; keys of a real dict are unique). -/
def find? {κ β : Type} [DecidableEq κ] : List (κ × β) → κ → Option β
  | [], _ => none
  | (k, v) :: t, key => if k = key then some v else find? t key

/-- Python dict assignment `d[key] = v`: replace the value in place when the
key is already present, otherwise append a new entry. -/
def insertA {κ β : Type} [DecidableEq κ] : List (κ × β) → κ → β → List (κ × β)
  | [], key, v => [(key, v)]
  | (k, v') :: t, key, v =>
    if k = key then (k, v) :: t else (k, v') :: insertA t key v

/-- First key of the association list holding a given value (used to reason
about the encoder table's code-to-string direction). -/
def findKey? {κ : Type} : List (κ × Nat) → Nat → Option κ
  | [], _ => none
  | (k, v) :: t, code => if v = code then some k else findKey? t code

/-- Value of `table[max(table, key=table.get)]`: the maximum value stored in
the dict, `none` when the dict is empty (Python: `max()` raises
`ValueError`). -/
def maxValA {κ : Type} : List (κ × Nat) → Option Nat
  | [] => none
  | (_, v) :: t =>
    match maxValA t with
    | none => some v
    | some m => some (Nat.max v m)

/-- `table[max(table, key=table.get)] + 1`, the `table_size` counter both
passes start from; `none` when the table is empty. -/
def tableSize {κ : Type} (t : List (κ × Nat)) : Option Nat :=
  (maxValA t).map (· + 1)

/-- `max_table_size = 2 ** 16` (line 56 of `lzw.py`). -/
def max_table_size : Nat := 2 ^ 16

/-- `list(set(uncompressed_data))`: the distinct symbols of the input, in a
deterministic order (Python's set order is unspecified; nothing downstream
depends on which order is produced). -/
def uniqueChars : List α → List α
  | [] => []
  | c :: t =>
    let u := uniqueChars t
    if c ∈ u then u else c :: u

/-- `{unique_chars[i]: i for i in range(len(unique_chars))}` built from a
running first index: each distinct symbol becomes a length-1 string keyed
entry with the next dense code. -/
def mkTableFrom : List α → Nat → List (List α × Nat)
  | [], _ => []
  | c :: t, i => ([c], i) :: mkTableFrom t (i + 1)

/-- The `initial_table` of `compress` (line 57 of `lzw.py`). -/
def mkInitialTable (u : List α) : List (List α × Nat) :=
  mkTableFrom u 0

/-- The `for char in uncompressed_data` loop of `compress` (lines 76-104):
state is the working table, the `table_size` counter and the pending
`prefix`; returns the emitted codes together with the final state. `none`
models the `KeyError` that `table[prefix]` would raise were `prefix` ever
missing. -/
def compressLoop : List (List α × Nat) → Nat → List α → List α →
    Option (List Nat × List (List α × Nat) × Nat × List α)
  | table, size, pre, [] => some ([], table, size, pre)
  | table, size, pre, c :: rest =>
    if (find? table (pre ++ [c])).isSome then
      compressLoop table size (pre ++ [c]) rest
    else
      match find? table pre with
      | none => none
      | some code =>
        let next :=
          if size > max_table_size - 1 then (table, size)
          else (insertA table (pre ++ [c]) size, size + 1)
        match compressLoop next.1 next.2 [c] rest with
        | none => none
        | some (codes, t2, s2, p2) => some (code :: codes, t2, s2, p2)

/-- `compress` (lines 15-131 of `lzw.py`): build the initial table from the
distinct symbols, run the LZW loop, then emit the final pending `prefix`
when non-empty; returns the compressed codes with the (unmutated) initial
table. `none` models the `ValueError` raised by `max()` on the empty
table. -/
def compress (s : List α) : Option (List Nat × List (List α × Nat)) :=
  let initial_table := mkInitialTable (uniqueChars s)
  match tableSize initial_table with
  | none => none
  | some table_size =>
    match compressLoop initial_table table_size [] s with
    | none => none
    | some (codes, table, _, pre) =>
      if pre = [] then some (codes, initial_table)
      else
        match find? table pre with
        | none => none
        | some code => some (codes ++ [code], initial_table)

/-- `{value: key for key, value in table.items()}` (line 168 of `lzw.py`):
fold the dict-comprehension assignments in insertion order (a later
duplicate value overwrites the earlier entry, as in Python). -/
def reverseTable {κ : Type} (t : List (κ × Nat)) : List (Nat × κ) :=
  t.foldl (fun acc p => insertA acc p.2 p.1) []

/-- The `output` computed for one code by the decode loop (lines 190-202):
the code's string when the code is a known key, the self-referential
`previous + previous[0]` when the code equals the `table_size` counter
(`none` on `previous[0]` of an empty string), and `none` (the raised
`ValueError`) otherwise. -/
def decodeOut? (table : List (Nat × List α)) (size : Nat) (previous : List α)
    (c : Nat) : Option (List α) :=
  match find? table c with
  | some out => some out
  | none =>
    if c = size then
      match previous with
      | [] => none
      | p :: _ => some (previous ++ [p])
    else none

/-- The `for current in compressed_data` loop of `uncompress` (lines
185-219): state is the code-to-string working table, the `table_size`
counter and the `previous` string; returns the decoded output of the loop
with the final table state. `none` models the `ValueError` of the corrupt
branch and the `IndexError`s of `previous[0]` / `output[0]` on an empty
string. Note the insertion at `table_size` is unconditional: the decode
pass has no `max_table_size` ceiling check. -/
def uncompressLoop : List (Nat × List α) → Nat → List α → List Nat →
    Option (List α × List (Nat × List α) × Nat)
  | table, size, _, [] => some ([], table, size)
  | table, size, previous, c :: rest =>
    match decodeOut? table size previous c with
    | none => none
    | some [] => none
    | some (o :: os) =>
      match uncompressLoop (insertA table size (previous ++ [o])) (size + 1)
          (o :: os) rest with
      | none => none
      | some (out2, t2, s2) => some ((o :: os) ++ out2, t2, s2)

/-- `uncompress` (lines 134-234 of `lzw.py`): compute `table_size` (the
`ValueError` on an empty table is `none`), reverse the table, consume the
first code (`compressed_data.pop(0)`; `none` models the `IndexError` on an
empty list and the `KeyError` on an unknown first code), then run the
decode loop. -/
def uncompress (compressed_data : List Nat) (table : List (List α × Nat)) :
    Option (List α) :=
  match tableSize table with
  | none => none
  | some table_size =>
    let rtable := reverseTable table
    match compressed_data with
    | [] => none
    | c :: rest =>
      match find? rtable c with
      | none => none
      | some current =>
        match uncompressLoop rtable table_size current rest with
        | none => none
        | some (out, _, _) => some (current ++ out)

/-- Caller-visible state of the `compressed_data` argument after a call to
`uncompress`: the list is mutated by `compressed_data.pop(0)` (line 181),
which executes exactly when the `table_size` computation succeeded and the
list is non-empty. The `table` argument is only rebound to a new reversed
dict, never mutated. -/
def dataAfterUncompress (compressed_data : List Nat)
    (table : List (List α × Nat)) : List Nat :=
  match tableSize table with
  | none => compressed_data
  | some _ =>
    match compressed_data with
    | [] => compressed_data
    | _ :: rest => rest

/-- Specification predicate for the decode loop, following the claim's
wording: each code must be a key of the working table at the point it is
processed, or equal to the `table_size` counter at that point; the state
evolves exactly as the decoder's does. -/
def goodCodes : List (Nat × List α) → Nat → List α → List Nat → Bool
  | _, _, _, [] => true
  | table, size, previous, c :: rest =>
    match find? table c with
    | some out =>
      goodCodes (insertA table size (previous ++ out.take 1)) (size + 1) out
        rest
    | none =>
      if c = size then
        goodCodes (insertA table size (previous ++ previous.take 1))
          (size + 1) (previous ++ previous.take 1) rest
      else false

/-! ### Binary codec (`compress_to_file` / `uncompress_from_file`) -/

/-- `struct.pack("<B", n)`: one byte; `struct.error` for n ≥ 256. -/
def packB (n : Nat) : Option (List Nat) :=
  if n < 256 then some [n] else none

/-- `struct.pack("<H", n)`: two little-endian bytes; `struct.error` for
n ≥ 65536. -/
def packH (n : Nat) : Option (List Nat) :=
  if n < 65536 then some [n % 256, n / 256] else none

/-- The table-writing loop of `compress_to_file` (lines 289-291): for each
entry, 2 bytes of the symbol's code point then 1 byte of its code. -/
def serializeEntries : List (Char × Nat) → Option (List Nat)
  | [] => some []
  | (c, code) :: t =>
    match packH c.toNat, packB code, serializeEntries t with
    | some hb, some bb, some rest => some (hb ++ bb ++ rest)
    | _, _, _ => none

/-- The code-writing loop of `compress_to_file` (lines 297-298): each code
as 2 bytes. -/
def serializeCodes : List Nat → Option (List Nat)
  | [] => some []
  | c :: t =>
    match packH c, serializeCodes t with
    | some hb, some rest => some (hb ++ rest)
    | _, _ => none

/-- The byte stream written by `compress_to_file` (lines 269-298) for a given
initial table and code list: 1 byte holding the highest assigned code
(`table_size = table[max(table, key=table.get)]`, no `+ 1`), the table
entries, then the codes. -/
def serializeTableCodes (table : List (Char × Nat)) (codes : List Nat) :
    Option (List Nat) :=
  match maxValA table with
  | none => none
  | some table_size =>
    match packB table_size, serializeEntries table, serializeCodes codes with
    | some tsb, some eb, some cb => some (tsb ++ eb ++ cb)
    | _, _, _ => none

/-- `ord(char)` requires the dict key to be a length-1 string; the keys that
`compress` produces always are. -/
def keyChar? (k : List Char) : Option Char :=
  match k with
  | [c] => some c
  | _ => none

/-- View of `compress`'s string-keyed initial table as the character-keyed
table that the file writer consumes (each key is a length-1 string). -/
def tableToChars : List (List Char × Nat) → Option (List (Char × Nat))
  | [] => some []
  | (k, code) :: t =>
    match keyChar? k, tableToChars t with
    | some c, some rest => some ((c, code) :: rest)
    | _, _ => none

/-- The full write pipeline of `compress_to_file`: compress the text, then
serialize the initial table and the codes. -/
def compressToFileBytes (s : List Char) : Option (List Nat) :=
  match compress s with
  | none => none
  | some (codes, t) =>
    match tableToChars t with
    | none => none
    | some tc => serializeTableCodes tc codes

/-- `file.read(1)` followed by `struct.unpack("<B", ...)`: `none` when the
stream is exhausted. -/
def readByte : List Nat → Option (Nat × List Nat)
  | [] => none
  | b :: rest => some (b, rest)

/-- `file.read(2)` followed by `struct.unpack("<H", ...)`: `none` when fewer
than 2 bytes remain. -/
def readH : List Nat → Option (Nat × List Nat)
  | b0 :: b1 :: rest => some (b0 + 256 * b1, rest)
  | _ => none

/-- The table-reading loop of `uncompress_from_file` (lines 343-347): read
`table_size + 1` triples of 2-byte code point (`chr`) plus 1-byte code,
building the dict by assignment. -/
def readEntriesAux : Nat → List (Char × Nat) → List Nat →
    Option (List (Char × Nat) × List Nat)
  | 0, acc, bs => some (acc, bs)
  | k + 1, acc, bs =>
    match readH bs with
    | none => none
    | some (h, bs1) =>
      match readByte bs1 with
      | none => none
      | some (b, bs2) => readEntriesAux k (insertA acc (Char.ofNat h) b) bs2

/-- The code-reading loop of `uncompress_from_file` (lines 353-359): 2 bytes
at a time until the stream is empty; a trailing single byte raises
`struct.error`. -/
def readCodes : List Nat → Option (List Nat)
  | [] => some []
  | [_] => none
  | b0 :: b1 :: rest =>
    match readCodes rest with
    | none => none
    | some cs => some ((b0 + 256 * b1) :: cs)

/-- The read side of `uncompress_from_file` (lines 325-359): table size,
table entries, then codes to end of stream. -/
def deserialize (bs : List Nat) : Option (List (Char × Nat) × List Nat) :=
  match readByte bs with
  | none => none
  | some (ts, bs1) =>
    match readEntriesAux (ts + 1) [] bs1 with
    | none => none
    | some (t, bs2) =>
      match readCodes bs2 with
      | none => none
      | some codes => some (t, codes)

/-- Simulation invariant tying an encoder state (working table `T`, counter
`sz`, pending string `pre`, remaining input `inp`) to the decoder state
(code-to-string table `R`, counter `dsz`, last output `prev`) at the moment
the decoder has just consumed the code the encoder emitted for `prev`.
The final clause says every encoder entry is mirrored in `R` except
possibly the most recent insertion, which the decoder is one step behind
on (the classic LZW lookahead), and whose string is then
`prev ++ [pre.head]`. -/
def Sync (T : List (List α × Nat)) (sz : Nat) (pre inp : List α)
    (R : List (Nat × List α)) (dsz : Nat) (prev : List α) : Prop :=
  T.map Prod.snd = List.range sz ∧
  sz ≤ max_table_size ∧
  (T.map Prod.fst).Nodup ∧
  (∀ c ∈ inp, (find? T [c]).isSome = true) ∧
  pre ≠ [] ∧
  (find? T pre).isSome = true ∧
  prev ≠ [] ∧
  R.map Prod.fst = List.range dsz ∧
  (dsz + 1 = sz ∨ (sz = max_table_size ∧ max_table_size ≤ dsz)) ∧
  (∀ c p, findKey? T c = some p →
    find? R c = some p ∨ (c = dsz ∧ dsz + 1 = sz ∧ p = prev ++ pre.take 1))

/-! ### Association-list lemmas -/

theorem find?_eq_none_iff {κ β : Type} [DecidableEq κ]
    (l : List (κ × β)) (k : κ) :
    find? l k = none ↔ k ∉ l.map Prod.fst := by
  induction l with
  | nil => simp [find?]
  | cons p t ih =>
    obtain ⟨k', v'⟩ := p
    by_cases h : k' = k <;> simp [find?, h, ih, Ne.symm]

theorem find?_isSome_iff {κ β : Type} [DecidableEq κ]
    (l : List (κ × β)) (k : κ) :
    (find? l k).isSome = true ↔ k ∈ l.map Prod.fst := by
  rw [Option.isSome_iff_ne_none, ne_eq, find?_eq_none_iff, not_not]

theorem find?_mem {κ β : Type} [DecidableEq κ]
    {l : List (κ × β)} {k : κ} {v : β} (h : find? l k = some v) :
    (k, v) ∈ l := by
  induction l with
  | nil => simp [find?] at h
  | cons p t ih =>
    obtain ⟨k', v'⟩ := p
    by_cases hk : k' = k
    · simp only [find?, if_pos hk] at h
      subst hk
      cases h
      exact List.mem_cons_self _ _
    · simp only [find?, if_neg hk] at h
      exact List.mem_cons_of_mem _ (ih h)

theorem findKey?_mem {κ : Type} {l : List (κ × Nat)} {c : Nat} {k : κ}
    (h : findKey? l c = some k) : (k, c) ∈ l := by
  induction l with
  | nil => simp [findKey?] at h
  | cons p t ih =>
    obtain ⟨k', v'⟩ := p
    by_cases hv : v' = c
    · simp only [findKey?, if_pos hv] at h
      subst hv
      cases h
      exact List.mem_cons_self _ _
    · simp only [findKey?, if_neg hv] at h
      exact List.mem_cons_of_mem _ (ih h)

theorem findKey?_eq_some_of_mem {κ : Type} {l : List (κ × Nat)} {k : κ}
    {c : Nat} (hnd : (l.map Prod.snd).Nodup) (hm : (k, c) ∈ l) :
    findKey? l c = some k := by
  induction l with
  | nil => simp at hm
  | cons p t ih =>
    obtain ⟨k', v'⟩ := p
    simp only [List.map_cons, List.nodup_cons] at hnd
    rcases List.mem_cons.mp hm with h | h
    · cases h
      simp [findKey?]
    · have hvc : v' ≠ c := by
        intro he
        subst he
        exact hnd.1 (List.mem_map.mpr ⟨(k, v'), h, rfl⟩)
      simp [findKey?, hvc, ih hnd.2 h]

theorem insertA_of_not_mem {κ β : Type} [DecidableEq κ]
    {l : List (κ × β)} {k : κ} (v : β) (h : k ∉ l.map Prod.fst) :
    insertA l k v = l ++ [(k, v)] := by
  induction l with
  | nil => simp [insertA]
  | cons p t ih =>
    obtain ⟨k', v'⟩ := p
    simp only [List.map_cons, List.mem_cons] at h
    push_neg at h
    simp [insertA, Ne.symm h.1, ih h.2]

theorem find?_append {κ β : Type} [DecidableEq κ]
    (l₁ l₂ : List (κ × β)) (k : κ) :
    find? (l₁ ++ l₂) k =
      match find? l₁ k with
      | some v => some v
      | none => find? l₂ k := by
  induction l₁ with
  | nil => simp [find?]
  | cons p t ih =>
    obtain ⟨k', v'⟩ := p
    by_cases h : k' = k <;> simp [find?, h, ih]

theorem findKey?_append {κ : Type} (l₁ l₂ : List (κ × Nat)) (c : Nat) :
    findKey? (l₁ ++ l₂) c =
      match findKey? l₁ c with
      | some k => some k
      | none => findKey? l₂ c := by
  induction l₁ with
  | nil => simp [findKey?]
  | cons p t ih =>
    obtain ⟨k', v'⟩ := p
    by_cases h : v' = c <;> simp [findKey?, h, ih]

theorem find?_insertA_self {κ β : Type} [DecidableEq κ]
    (l : List (κ × β)) (k : κ) (v : β) :
    find? (insertA l k v) k = some v := by
  induction l with
  | nil => simp [insertA, find?]
  | cons p t ih =>
    obtain ⟨k', v'⟩ := p
    by_cases h : k' = k <;> simp [insertA, find?, h, ih]

theorem find?_insertA_ne {κ β : Type} [DecidableEq κ]
    (l : List (κ × β)) (k k' : κ) (v : β) (h : k' ≠ k) :
    find? (insertA l k v) k' = find? l k' := by
  induction l with
  | nil => simp [insertA, find?, Ne.symm h]
  | cons p t ih =>
    obtain ⟨k'', v''⟩ := p
    by_cases hk : k'' = k
    · subst hk
      simp [insertA, find?, Ne.symm h]
    · by_cases hk' : k'' = k' <;> simp [insertA, find?, hk, hk', ih, h]

theorem insertA_map_fst_of_not_mem {κ β : Type} [DecidableEq κ]
    {l : List (κ × β)} {k : κ} (v : β) (h : k ∉ l.map Prod.fst) :
    (insertA l k v).map Prod.fst = l.map Prod.fst ++ [k] := by
  rw [insertA_of_not_mem v h]
  simp

theorem mem_snd_insertA {κ β : Type} [DecidableEq κ]
    {l : List (κ × β)} {k : κ} {v p : β}
    (h : p ∈ (insertA l k v).map Prod.snd) :
    p ∈ l.map Prod.snd ∨ p = v := by
  induction l with
  | nil =>
    simp [insertA] at h
    exact Or.inr h
  | cons q t ih =>
    obtain ⟨k', v'⟩ := q
    by_cases hk : k' = k
    · simp only [insertA, if_pos hk, List.map_cons, List.mem_cons] at h
      rcases h with h | h
      · exact Or.inr h
      · exact Or.inl (by
          simp only [List.map_cons, List.mem_cons]
          exact Or.inr h)
    · simp only [insertA, if_neg hk, List.map_cons, List.mem_cons] at h
      rcases h with h | h
      · exact Or.inl (by simp [h])
      · rcases ih h with h' | h'
        · exact Or.inl (by
            simp only [List.map_cons, List.mem_cons]
            exact Or.inr h')
        · exact Or.inr h'

theorem maxValA_eq_none_iff {κ : Type} (l : List (κ × Nat)) :
    maxValA l = none ↔ l = [] := by
  cases l with
  | nil => simp [maxValA]
  | cons p t =>
    simp only [maxValA]
    cases maxValA t <;> simp

theorem le_maxValA_of_mem {κ : Type} {l : List (κ × Nat)} {k : κ} {v m : Nat}
    (hm : maxValA l = some m) (hmem : (k, v) ∈ l) : v ≤ m := by
  induction l generalizing m with
  | nil => simp at hmem
  | cons p t ih =>
    obtain ⟨k', v'⟩ := p
    simp only [maxValA] at hm
    rcases List.mem_cons.mp hmem with h | h
    · cases h
      cases ht : maxValA t <;> rw [ht] at hm <;> cases hm <;> simp
    · cases ht : maxValA t with
      | none =>
        rw [(maxValA_eq_none_iff t).mp ht] at h
        simp at h
      | some m' =>
        rw [ht] at hm
        cases hm
        exact le_trans (ih ht h) (Nat.le_max_right _ _)

/-! ### Initial-table and reversed-table lemmas -/

theorem mem_uniqueChars (s : List α) (c : α) :
    c ∈ uniqueChars s ↔ c ∈ s := by
  induction s with
  | nil => simp [uniqueChars]
  | cons a t ih =>
    by_cases h : a ∈ uniqueChars t
    · simp only [uniqueChars, if_pos h, List.mem_cons, ih]
      constructor
      · exact Or.inr
      · rintro (rfl | hc)
        · exact ih.mp h
        · exact hc
    · simp [uniqueChars, if_neg h, ih]

theorem uniqueChars_nodup (s : List α) : (uniqueChars s).Nodup := by
  induction s with
  | nil => simp [uniqueChars]
  | cons a t ih =>
    by_cases h : a ∈ uniqueChars t
    · simpa [uniqueChars, if_pos h] using ih
    · simp [uniqueChars, if_neg h, ih, h]

theorem uniqueChars_eq_nil_iff (s : List α) : uniqueChars s = [] ↔ s = [] := by
  cases s with
  | nil => simp [uniqueChars]
  | cons a t =>
    simp only [uniqueChars]
    constructor
    · intro h
      by_cases hm : a ∈ uniqueChars t
      · rw [if_pos hm] at h
        rw [h] at hm
        simp at hm
      · rw [if_neg hm] at h
        simp at h
    · intro h
      simp at h

theorem mkTableFrom_map_fst (u : List α) (i : Nat) :
    (mkTableFrom u i).map Prod.fst = u.map (fun c => [c]) := by
  induction u generalizing i with
  | nil => simp [mkTableFrom]
  | cons c t ih => simp [mkTableFrom, ih]

theorem mkTableFrom_map_snd (u : List α) (i : Nat) :
    (mkTableFrom u i).map Prod.snd = List.range' i u.length := by
  induction u generalizing i with
  | nil => simp [mkTableFrom]
  | cons c t ih => simp [mkTableFrom, ih, List.range'_succ]

theorem maxValA_mkTableFrom (c : α) (u : List α) (i : Nat) :
    maxValA (mkTableFrom (c :: u) i) = some (i + u.length) := by
  induction u generalizing c i with
  | nil => simp [mkTableFrom, maxValA]
  | cons c' t ih =>
    have h := ih c' (i + 1)
    simp only [mkTableFrom, maxValA] at h ⊢
    rw [h]
    simp only [List.length_cons]
    congr 1
    have he : i + 1 + t.length = i + (t.length + 1) := by omega
    rw [← he]
    exact Nat.max_eq_right (by omega)

theorem tableSize_mkInitialTable (c : α) (u : List α) :
    tableSize (mkInitialTable (c :: u)) = some (c :: u).length := by
  simp [tableSize, mkInitialTable, maxValA_mkTableFrom]

theorem find?_mkTableFrom_isSome (u : List α) (i : Nat) {c : α}
    (h : c ∈ u) : (find? (mkTableFrom u i) [c]).isSome = true := by
  induction u generalizing i with
  | nil => simp at h
  | cons a t ih =>
    rcases List.mem_cons.mp h with rfl | hm
    · simp [mkTableFrom, find?]
    · by_cases ha : a = c
      · simp [mkTableFrom, find?, ha]
      · have : ([a] : List α) ≠ [c] := by simp [ha]
        simp [mkTableFrom, find?, this, ih _ hm]

theorem find?_mkTableFrom_pair (u : List α) (i : Nat) (a b : α)
    (l : List α) : find? (mkTableFrom u i) (a :: b :: l) = none := by
  induction u generalizing i with
  | nil => simp [mkTableFrom, find?]
  | cons c t ih =>
    have : ([c] : List α) ≠ a :: b :: l := by simp
    simp [mkTableFrom, find?, this, ih]

theorem foldl_insertA_fresh {κ : Type} (t : List (κ × Nat))
    (acc : List (Nat × κ))
    (hfresh : ∀ v ∈ t.map Prod.snd, v ∉ acc.map Prod.fst)
    (hnd : (t.map Prod.snd).Nodup) :
    t.foldl (fun acc p => insertA acc p.2 p.1) acc =
      acc ++ t.map (fun p => (p.2, p.1)) := by
  induction t generalizing acc with
  | nil => simp
  | cons p t ih =>
    obtain ⟨k, v⟩ := p
    simp only [List.map_cons, List.nodup_cons] at hnd
    have hv : v ∉ acc.map Prod.fst := hfresh v (by simp)
    simp only [List.foldl_cons]
    rw [insertA_of_not_mem k hv]
    rw [ih (acc ++ [(v, k)]) ?_ hnd.2]
    · simp
    · intro v' hv'
      have hv'' : v' ∈ ((k, v) :: t).map Prod.snd :=
        List.mem_cons_of_mem _ hv'
      simp only [List.map_append, List.mem_append]
      rintro (h | h)
      · exact hfresh v' hv'' h
      · simp at h
        exact hnd.1 (h ▸ hv')

theorem reverseTable_eq_swap {κ : Type} (t : List (κ × Nat))
    (hnd : (t.map Prod.snd).Nodup) :
    reverseTable t = t.map (fun p => (p.2, p.1)) := by
  unfold reverseTable
  rw [foldl_insertA_fresh t [] (by simp) hnd]
  simp

theorem find?_swap_eq_findKey? {κ : Type} (t : List (κ × Nat)) (c : Nat) :
    find? (t.map (fun p => (p.2, p.1))) c = findKey? t c := by
  induction t with
  | nil => simp [find?, findKey?]
  | cons p l ih =>
    obtain ⟨k, v⟩ := p
    by_cases h : v = c <;> simp [find?, findKey?, h, ih]

theorem find?_reverseTable {κ : Type} (t : List (κ × Nat))
    (hnd : (t.map Prod.snd).Nodup) (c : Nat) :
    find? (reverseTable t) c = findKey? t c := by
  rw [reverseTable_eq_swap t hnd, find?_swap_eq_findKey?]

theorem reverseTable_map_fst {κ : Type} (t : List (κ × Nat))
    (hnd : (t.map Prod.snd).Nodup) :
    (reverseTable t).map Prod.fst = t.map Prod.snd := by
  rw [reverseTable_eq_swap t hnd]
  simp [Function.comp]

/-! ### Encoder/decoder simulation -/

theorem find?_append_some {κ β : Type} [DecidableEq κ]
    {l₁ : List (κ × β)} {k : κ} {v : β} (l₂ : List (κ × β))
    (h : find? l₁ k = some v) : find? (l₁ ++ l₂) k = some v := by
  rw [find?_append, h]

theorem find?_append_isSome {κ β : Type} [DecidableEq κ]
    {l₁ : List (κ × β)} {k : κ} (l₂ : List (κ × β))
    (h : (find? l₁ k).isSome = true) :
    (find? (l₁ ++ l₂) k).isSome = true := by
  rw [find?_append]
  cases hf : find? l₁ k with
  | none => rw [hf] at h; simp at h
  | some v => simp

theorem mem_keys_of_find?_some {κ β : Type} [DecidableEq κ]
    {l : List (κ × β)} {k : κ} {v : β} (h : find? l k = some v) :
    k ∈ l.map Prod.fst := by
  by_contra hmem
  rw [(find?_eq_none_iff l k).mpr hmem] at h
  exact Option.noConfusion h

theorem take_one_append {l : List α} (l' : List α) (h : l ≠ []) :
    (l ++ l').take 1 = l.take 1 := by
  cases l with
  | nil => exact absurd rfl h
  | cons a t => simp

theorem self_ref_head {pre prev : List α} (hprev : prev ≠ [])
    (h : pre = prev ++ pre.take 1) : pre = prev ++ prev.take 1 := by
  obtain ⟨q, qs, rfl⟩ : ∃ q qs, prev = q :: qs := by
    cases prev with
    | nil => exact absurd rfl hprev
    | cons q qs => exact ⟨q, qs, rfl⟩
  have h1 : pre.take 1 = [q] := by
    conv_lhs => rw [h]
    simp
  rw [h1] at h
  simpa using h

/-- The decoder's per-code output is exactly the string the encoder emitted
the code for (either via the mirrored table entry or via the
self-referential special case when the decoder is one entry behind). -/
theorem decodeOut_eq
    {T : List (List α × Nat)} {sz : Nat} {pre prev : List α}
    {R : List (Nat × List α)} {dsz : Nat} {c : Nat}
    (hvals : T.map Prod.snd = List.range sz)
    (hrkeys : R.map Prod.fst = List.range dsz)
    (hprev : prev ≠ [])
    (hmirror : ∀ c' p, findKey? T c' = some p →
      find? R c' = some p ∨ (c' = dsz ∧ dsz + 1 = sz ∧ p = prev ++ pre.take 1))
    (hpre : pre ≠ [])
    (hc : find? T pre = some c) :
    decodeOut? R dsz prev c = some pre := by
  have hmem : (pre, c) ∈ T := find?_mem hc
  have hnd : (T.map Prod.snd).Nodup := by
    rw [hvals]; exact List.nodup_range sz
  have hfk : findKey? T c = some pre := findKey?_eq_some_of_mem hnd hmem
  rcases hmirror c pre hfk with h | ⟨hceq, hlag, hform⟩
  · unfold decodeOut?
    rw [h]
  · have hnone : find? R c = none := by
      rw [find?_eq_none_iff, hrkeys, hceq]
      simp
    have hform' : pre = prev ++ prev.take 1 := self_ref_head hprev hform
    obtain ⟨q, qs, rfl⟩ : ∃ q qs, prev = q :: qs := by
      cases prev with
      | nil => exact absurd rfl hprev
      | cons q qs => exact ⟨q, qs, rfl⟩
    unfold decodeOut?
    rw [hnone, if_pos hceq]
    simpa using hform'.symm

/-- One emission step preserves the simulation invariant: the encoder emits
the code of `pre` on the miss `pre ++ [x]`, inserting it when below the
ceiling, while the decoder inserts `prev ++ [pre.head]` (mirroring the
encoder's previous insertion, or a junk entry past the ceiling) and moves
to `prev := pre`. -/
theorem syncStep {T : List (List α × Nat)} {sz : Nat} {pre : List α}
    {x : α} {inp : List α} {R : List (Nat × List α)} {dsz : Nat}
    {prev : List α}
    (hsync : Sync T sz pre (x :: inp) R dsz prev)
    (hmiss : find? T (pre ++ [x]) = none) :
    Sync (if sz > max_table_size - 1 then (T, sz)
      else (insertA T (pre ++ [x]) sz, sz + 1)).1
      (if sz > max_table_size - 1 then (T, sz)
        else (insertA T (pre ++ [x]) sz, sz + 1)).2
      [x] inp (insertA R dsz (prev ++ pre.take 1)) (dsz + 1) pre := by
  obtain ⟨hvals, hszle, hknd, hsingles, hpre, hpreT, hprev, hrkeys, hlag,
    hmirror⟩ := hsync
  have hfreshT : (pre ++ [x]) ∉ T.map Prod.fst :=
    (find?_eq_none_iff T (pre ++ [x])).mp hmiss
  have hfreshR : dsz ∉ R.map Prod.fst := by
    rw [hrkeys]; simp
  have hRkeys' : (insertA R dsz (prev ++ pre.take 1)).map Prod.fst =
      List.range (dsz + 1) := by
    rw [insertA_map_fst_of_not_mem _ hfreshR, hrkeys, List.range_succ]
  have hMpos : (1 : Nat) ≤ max_table_size := by
    unfold max_table_size; omega
  by_cases hsz : sz > max_table_size - 1
  · -- ceiling reached: sz = max_table_size, the encoder table is frozen
    have hszM : sz = max_table_size := by omega
    rw [if_pos hsz]
    show Sync T sz [x] inp (insertA R dsz (prev ++ pre.take 1)) (dsz + 1) pre
    refine ⟨hvals, hszle, hknd, ?_, by simp, ?_, hpre, hRkeys', ?_, ?_⟩
    · intro c hc
      exact hsingles c (List.mem_cons_of_mem _ hc)
    · exact hsingles x (List.mem_cons_self _ _)
    · right
      refine ⟨hszM, ?_⟩
      rcases hlag with h | ⟨_, h⟩ <;> omega
    · intro c' p' hfk
      left
      rcases hmirror c' p' hfk with h | ⟨hceq, hl, hp⟩
      · have hc'mem : c' ∈ R.map Prod.fst := mem_keys_of_find?_some h
        rw [hrkeys, List.mem_range] at hc'mem
        rw [find?_insertA_ne _ _ _ _ (by omega)]
        exact h
      · rw [hp, hceq, find?_insertA_self]
  · -- below the ceiling: the encoder inserts `pre ++ [x]` at code `sz`
    rw [if_neg hsz]
    simp only [not_lt] at hsz
    show Sync (insertA T (pre ++ [x]) sz) (sz + 1) [x] inp
      (insertA R dsz (prev ++ pre.take 1)) (dsz + 1) pre
    have hins : insertA T (pre ++ [x]) sz = T ++ [(pre ++ [x], sz)] :=
      insertA_of_not_mem _ hfreshT
    have hlag1 : dsz + 1 = sz := by
      rcases hlag with h | ⟨hM, _⟩
      · exact h
      · omega
    refine ⟨?_, by omega, ?_, ?_, by simp, ?_, hpre, hRkeys',
      Or.inl (by omega), ?_⟩
    · rw [hins]
      simp [hvals, List.range_succ]
    · rw [hins, List.map_append]
      rw [List.nodup_append]
      refine ⟨hknd, by simp, ?_⟩
      intro a ha hb
      simp at hb
      rw [hb] at ha
      exact hfreshT ha
    · intro c hc
      rw [hins]
      exact find?_append_isSome _ (hsingles c (List.mem_cons_of_mem _ hc))
    · rw [hins]
      exact find?_append_isSome _ (hsingles x (List.mem_cons_self _ _))
    · intro c' p' hfk
      rw [hins, findKey?_append] at hfk
      cases hold : findKey? T c' with
      | some p'' =>
        rw [hold] at hfk
        simp at hfk
        rw [← hfk]
        rcases hmirror c' p'' hold with h | ⟨hceq, hl, hp⟩
        · left
          have hc'mem : c' ∈ R.map Prod.fst := mem_keys_of_find?_some h
          rw [hrkeys, List.mem_range] at hc'mem
          rw [find?_insertA_ne _ _ _ _ (by omega)]
          exact h
        · left
          rw [hp, hceq, find?_insertA_self]
      | none =>
        rw [hold] at hfk
        simp only [findKey?] at hfk
        by_cases hcsz : sz = c'
        · rw [if_pos hcsz] at hfk
          injection hfk with hfk'
          right
          refine ⟨by omega, by omega, ?_⟩
          rw [← hfk']
          simp
        · rw [if_neg hcsz] at hfk
          exact Option.noConfusion hfk

/-- Main simulation: from any pair of states related by `Sync`, the encoder
loop succeeds, its final pending string has a code, and the decoder,
consuming the emitted codes followed by that final code, reconstructs
exactly `pre ++ inp`. -/
theorem simMain (inp : List α) : ∀ (T : List (List α × Nat)) (sz : Nat)
    (pre : List α) (R : List (Nat × List α)) (dsz : Nat) (prev : List α),
    Sync T sz pre inp R dsz prev →
    ∃ codes T' sz' pre' fc R' dsz',
      compressLoop T sz pre inp = some (codes, T', sz', pre') ∧
      pre' ≠ [] ∧
      find? T' pre' = some fc ∧
      uncompressLoop R dsz prev (codes ++ [fc]) =
        some (pre ++ inp, R', dsz') := by
  induction inp with
  | nil =>
    intro T sz pre R dsz prev hsync
    obtain ⟨hvals, hszle, hknd, hsingles, hpre, hpreT, hprev, hrkeys, hlag,
      hmirror⟩ := hsync
    obtain ⟨fc, hfc⟩ := Option.isSome_iff_exists.mp hpreT
    have hdec : decodeOut? R dsz prev fc = some pre :=
      decodeOut_eq hvals hrkeys hprev hmirror hpre hfc
    obtain ⟨o, os, rfl⟩ : ∃ o os, pre = o :: os := by
      cases pre with
      | nil => exact absurd rfl hpre
      | cons o os => exact ⟨o, os, rfl⟩
    refine ⟨[], T, sz, o :: os, fc,
      insertA R dsz (prev ++ [o]), dsz + 1, rfl, by simp, hfc, ?_⟩
    simp only [List.nil_append]
    simp [uncompressLoop, hdec]
  | cons x rest ih =>
    intro T sz pre R dsz prev hsync
    obtain ⟨hvals, hszle, hknd, hsingles, hpre, hpreT, hprev, hrkeys, hlag,
      hmirror⟩ := hsync
    by_cases hm : (find? T (pre ++ [x])).isSome = true
    · -- the extended string is known: the encoder just grows `pre`
      have hsync' : Sync T sz (pre ++ [x]) rest R dsz prev := by
        refine ⟨hvals, hszle, hknd,
          fun c hc => hsingles c (List.mem_cons_of_mem _ hc), by simp, hm,
          hprev, hrkeys, hlag, ?_⟩
        intro c' p' hfk
        rcases hmirror c' p' hfk with h | ⟨h1, h2, h3⟩
        · exact Or.inl h
        · exact Or.inr ⟨h1, h2, by rw [h3, take_one_append _ hpre]⟩
      obtain ⟨codes, T', sz', pre', fc, R', dsz', hcomp, hpre', hfc, hdec⟩ :=
        ih T sz (pre ++ [x]) R dsz prev hsync'
      refine ⟨codes, T', sz', pre', fc, R', dsz', ?_, hpre', hfc, ?_⟩
      · simp only [compressLoop, if_pos hm]
        exact hcomp
      · have he : pre ++ x :: rest = (pre ++ [x]) ++ rest := by simp
        rw [he]
        exact hdec
    · -- miss: the encoder emits the code of `pre`
      have hmiss : find? T (pre ++ [x]) = none := by
        cases hval : find? T (pre ++ [x]) with
        | none => rfl
        | some v => rw [hval] at hm; simp at hm
      obtain ⟨c, hc⟩ := Option.isSome_iff_exists.mp hpreT
      have hdec0 : decodeOut? R dsz prev c = some pre :=
        decodeOut_eq hvals hrkeys hprev hmirror hpre hc
      have hsync1 := syncStep ⟨hvals, hszle, hknd, hsingles, hpre, hpreT,
        hprev, hrkeys, hlag, hmirror⟩ hmiss
      obtain ⟨codes, T', sz', pre', fc, R', dsz', hcomp, hpre', hfc, hdec⟩ :=
        ih _ _ [x] _ (dsz + 1) pre hsync1
      obtain ⟨o, os, rfl⟩ : ∃ o os, pre = o :: os := by
        cases pre with
        | nil => exact absurd rfl hpre
        | cons o os => exact ⟨o, os, rfl⟩
      simp only [List.take_succ_cons, List.take_zero] at hdec hsync1
      refine ⟨c :: codes, T', sz', pre', fc, R', dsz', ?_, hpre', hfc, ?_⟩
      · simp only [compressLoop, if_neg hm, hc]
        rw [hcomp]
      · simp only [List.cons_append, uncompressLoop, hdec0]
        rw [List.append_eq, hdec]
        simp

theorem compressLoop_cons (T : List (List α × Nat)) (sz : Nat)
    (pre : List α) (c : α) (rest : List α) :
    compressLoop T sz pre (c :: rest) =
      if (find? T (pre ++ [c])).isSome then
        compressLoop T sz (pre ++ [c]) rest
      else
        match find? T pre with
        | none => none
        | some code =>
          match compressLoop
              (if sz > max_table_size - 1 then (T, sz)
                else (insertA T (pre ++ [c]) sz, sz + 1)).1
              (if sz > max_table_size - 1 then (T, sz)
                else (insertA T (pre ++ [c]) sz, sz + 1)).2 [c] rest with
          | none => none
          | some (codes, t2, s2, p2) => some (code :: codes, t2, s2, p2) :=
  rfl

/-- The invariant holds right after the encoder's first emission (of the
first symbol's code) paired with the decoder's special consumption of the
first code, which sets `previous` without inserting anything. -/
theorem syncStart {T0 : List (List α × Nat)} {n : Nat} {x y : α}
    {rest' : List α}
    (hvals0 : T0.map Prod.snd = List.range n)
    (hknd0 : (T0.map Prod.fst).Nodup)
    (hsingles : ∀ c ∈ x :: y :: rest', (find? T0 [c]).isSome = true)
    (hcap : n ≤ max_table_size)
    (hR0find : ∀ c, find? (reverseTable T0) c = findKey? T0 c)
    (hR0keys : (reverseTable T0).map Prod.fst = List.range n)
    (hmiss : find? T0 ([x] ++ [y]) = none) :
    Sync (if n > max_table_size - 1 then (T0, n)
        else (insertA T0 ([x] ++ [y]) n, n + 1)).1
      (if n > max_table_size - 1 then (T0, n)
        else (insertA T0 ([x] ++ [y]) n, n + 1)).2
      [y] rest' (reverseTable T0) n [x] := by
  by_cases hsz : n > max_table_size - 1
  · have hnM : n = max_table_size := by
      unfold max_table_size at *
      omega
    rw [if_pos hsz]
    show Sync T0 n [y] rest' (reverseTable T0) n [x]
    refine ⟨hvals0, hcap, hknd0, ?_, by simp, ?_, by simp, hR0keys, ?_, ?_⟩
    · intro c hc
      exact hsingles c (by simp [hc])
    · exact hsingles y (by simp)
    · exact Or.inr ⟨hnM, by omega⟩
    · intro c' p' hfk
      exact Or.inl (by rw [hR0find]; exact hfk)
  · rw [if_neg hsz]
    simp only [not_lt] at hsz
    show Sync (insertA T0 ([x] ++ [y]) n) (n + 1) [y] rest'
      (reverseTable T0) n [x]
    have hfresh : ([x] ++ [y]) ∉ T0.map Prod.fst :=
      (find?_eq_none_iff _ _).mp hmiss
    have hins : insertA T0 ([x] ++ [y]) n = T0 ++ [([x] ++ [y], n)] :=
      insertA_of_not_mem _ hfresh
    refine ⟨?_, by unfold max_table_size at *; omega, ?_, ?_, by simp, ?_,
      by simp, hR0keys, Or.inl rfl, ?_⟩
    · rw [hins]
      simp [hvals0, List.range_succ]
    · rw [hins, List.map_append, List.nodup_append]
      refine ⟨hknd0, by simp, ?_⟩
      intro a ha hb
      simp at hb
      rw [hb] at ha
      exact hfresh ha
    · intro c hc
      rw [hins]
      exact find?_append_isSome _ (hsingles c (by simp [hc]))
    · rw [hins]
      exact find?_append_isSome _ (hsingles y (by simp))
    · intro c' p' hfk
      rw [hins, findKey?_append] at hfk
      cases hold : findKey? T0 c' with
      | some p'' =>
        rw [hold] at hfk
        simp at hfk
        rw [← hfk]
        exact Or.inl (by rw [hR0find]; exact hold)
      | none =>
        rw [hold] at hfk
        simp only [findKey?] at hfk
        by_cases hcn : n = c'
        · rw [if_pos hcn] at hfk
          injection hfk with hfk'
          exact Or.inr ⟨by omega, by omega, by rw [← hfk']; simp⟩
        · rw [if_neg hcn] at hfk
          exact Option.noConfusion hfk

/-- Round trip for every non-empty input whose alphabet fits the 16-bit
code space: `compress` succeeds and `uncompress` inverts it exactly. -/
theorem compress_uncompress_of_ne_nil (s : List α) (hne : s ≠ [])
    (hcap : (uniqueChars s).length ≤ max_table_size) :
    ∃ codes t, compress s = some (codes, t) ∧ uncompress codes t = some s := by
  obtain ⟨x, rest, rfl⟩ : ∃ x rest, s = x :: rest := by
    cases s with
    | nil => exact absurd rfl hne
    | cons x rest => exact ⟨x, rest, rfl⟩
  set u := uniqueChars (x :: rest) with hu
  set T0 := mkInitialTable u with hT0
  have hxmem : x ∈ u := (mem_uniqueChars _ _).mpr (List.mem_cons_self _ _)
  obtain ⟨c0, u0, hucons⟩ : ∃ c0 u0, u = c0 :: u0 := by
    cases hcase : u with
    | nil => rw [hcase] at hxmem; simp at hxmem
    | cons c0 u0 => exact ⟨c0, u0, rfl⟩
  have htsize : tableSize T0 = some u.length := by
    rw [hT0, hucons]
    exact tableSize_mkInitialTable c0 u0
  have hvals0 : T0.map Prod.snd = List.range u.length := by
    rw [hT0]
    unfold mkInitialTable
    rw [mkTableFrom_map_snd, ← List.range_eq_range']
  have hvnd0 : (T0.map Prod.snd).Nodup := by
    rw [hvals0]; exact List.nodup_range _
  have hknd0 : (T0.map Prod.fst).Nodup := by
    rw [hT0]
    unfold mkInitialTable
    rw [mkTableFrom_map_fst]
    exact List.Nodup.map (fun a b h => by simpa using h) (uniqueChars_nodup _)
  have hsingles0 : ∀ c ∈ x :: rest, (find? T0 [c]).isSome = true := by
    intro c hc
    rw [hT0]
    unfold mkInitialTable
    exact find?_mkTableFrom_isSome _ _ ((mem_uniqueChars _ _).mpr hc)
  have hR0keys : (reverseTable T0).map Prod.fst = List.range u.length := by
    rw [reverseTable_map_fst _ hvnd0, hvals0]
  have hR0find : ∀ c, find? (reverseTable T0) c = findKey? T0 c :=
    fun c => find?_reverseTable T0 hvnd0 c
  have hx1 : (find? T0 [x]).isSome = true :=
    hsingles0 x (List.mem_cons_self _ _)
  obtain ⟨cx, hcx⟩ := Option.isSome_iff_exists.mp hx1
  have hfkx : findKey? T0 cx = some [x] :=
    findKey?_eq_some_of_mem hvnd0 (find?_mem hcx)
  cases rest with
  | nil =>
    refine ⟨[cx], T0, ?_, ?_⟩
    · -- compress [x] = some ([cx], T0)
      have hloop : compressLoop T0 u.length [] [x] =
          some ([], T0, u.length, [x]) := by
        simp [compressLoop, hx1]
      simp only [compress]
      rw [← hu, ← hT0]
      simp only [htsize, hloop]
      have hxne : ¬ (([x] : List α) = []) := by simp
      rw [if_neg hxne]
      simp only [hcx]
      simp
    · -- uncompress [cx] T0 = some [x]
      have hrx : find? (reverseTable T0) cx = some [x] :=
        (hR0find cx).trans hfkx
      simp only [uncompress, htsize, hrx]
      simp [uncompressLoop]
  | cons y rest' =>
    have hmiss0 : find? T0 ([x] ++ [y]) = none := by
      rw [hT0]
      unfold mkInitialTable
      exact find?_mkTableFrom_pair _ _ _ _ _
    have hsync1 := syncStart hvals0 hknd0 hsingles0 hcap hR0find hR0keys hmiss0
    obtain ⟨codes, T', sz', pre', fc, R', dsz', hcomp, hpre', hfc, hdec⟩ :=
      simMain rest' _ _ [y] _ u.length [x] hsync1
    refine ⟨cx :: (codes ++ [fc]), T0, ?_, ?_⟩
    · -- compress run: first step extends to [x], second step misses and emits
      have hm' : ¬ ((find? T0 ([x] ++ [y])).isSome = true) := by
        rw [hmiss0]; simp
      have hloop : compressLoop T0 u.length [] (x :: y :: rest') =
          some (cx :: codes, T', sz', pre') := by
        rw [compressLoop_cons]
        simp only [List.nil_append]
        rw [if_pos hx1, compressLoop_cons, if_neg hm']
        simp only [hcx]
        rw [hcomp]
      simp only [compress]
      rw [← hu, ← hT0]
      simp only [htsize, hloop]
      rw [if_neg hpre']
      simp only [hfc]
      simp
    · -- decode run
      have hrx : find? (reverseTable T0) cx = some [x] :=
        (hR0find cx).trans hfkx
      simp only [uncompress, htsize, hrx, hdec]
      simp

/-! ### Encoder run: success, table shape and code bounds -/

theorem find?_insertA_isSome {κ β : Type} [DecidableEq κ]
    {l : List (κ × β)} {k' : κ} (k : κ) (v : β)
    (h : (find? l k').isSome = true) :
    (find? (insertA l k v) k').isSome = true := by
  by_cases hk : k' = k
  · subst hk
    rw [find?_insertA_self]
    rfl
  · rw [find?_insertA_ne _ _ _ _ hk]
    exact h

/-- Running the encoder loop from a table whose codes are exactly
`0..sz-1` and which knows every remaining single symbol: the loop never
fails, the value set stays an initial segment, and every emitted code is
below the final counter. -/
theorem compressLoop_run (inp : List α) : ∀ (T : List (List α × Nat))
    (sz : Nat) (pre : List α),
    T.map Prod.snd = List.range sz →
    (∀ c ∈ inp, (find? T [c]).isSome = true) →
    (pre = [] ∨ (find? T pre).isSome = true) →
    ∃ codes T' sz' pre',
      compressLoop T sz pre inp = some (codes, T', sz', pre') ∧
      T'.map Prod.snd = List.range sz' ∧
      sz ≤ sz' ∧
      (sz ≤ max_table_size → sz' ≤ max_table_size) ∧
      (pre' = [] ∨ (find? T' pre').isSome = true) ∧
      (pre' = [] → pre = [] ∧ inp = []) ∧
      (∀ c ∈ codes, c < sz') := by
  induction inp with
  | nil =>
    intro T sz pre hvals hsingles hpre
    exact ⟨[], T, sz, pre, rfl, hvals, le_refl _, fun h => h, hpre,
      fun h => ⟨h, rfl⟩, by simp⟩
  | cons x rest ih =>
    intro T sz pre hvals hsingles hpre
    by_cases hm : (find? T (pre ++ [x])).isSome = true
    · obtain ⟨codes, T', sz', pre', hloop, hvals', hle, hcap', hpre'T,
        hpre'e, hbound⟩ :=
        ih T sz (pre ++ [x]) hvals
          (fun c hc => hsingles c (List.mem_cons_of_mem _ hc)) (Or.inr hm)
      refine ⟨codes, T', sz', pre', ?_, hvals', hle, hcap', hpre'T, ?_,
        hbound⟩
      · rw [compressLoop_cons, if_pos hm]
        exact hloop
      · intro h
        obtain ⟨h1, _⟩ := hpre'e h
        simp at h1
    · -- miss: `pre` cannot be empty here, so its code exists and is emitted
      have hpre' : pre ≠ [] := by
        intro h
        rw [h] at hm
        simp only [List.nil_append] at hm
        exact hm (hsingles x (List.mem_cons_self _ _))
      have hpreS : (find? T pre).isSome = true := by
        rcases hpre with h | h
        · exact absurd h hpre'
        · exact h
      obtain ⟨c, hc⟩ := Option.isSome_iff_exists.mp hpreS
      have hcodeb : c < sz := by
        have : c ∈ T.map Prod.snd := List.mem_map_of_mem _ (find?_mem hc)
        rw [hvals, List.mem_range] at this
        exact this
      have hmiss : find? T (pre ++ [x]) = none := by
        cases hval : find? T (pre ++ [x]) with
        | none => rfl
        | some v => rw [hval] at hm; simp at hm
      have hfresh : (pre ++ [x]) ∉ T.map Prod.fst :=
        (find?_eq_none_iff _ _).mp hmiss
      by_cases hsz : sz > max_table_size - 1
      · -- frozen table
        obtain ⟨codes, T', sz', pre', hloop, hvals', hle, hcap', hpre'T,
          hpre'e, hbound⟩ :=
          ih T sz [x] hvals
            (fun a ha => hsingles a (List.mem_cons_of_mem _ ha))
            (Or.inr (hsingles x (List.mem_cons_self _ _)))
        refine ⟨c :: codes, T', sz', pre', ?_, hvals', hle, hcap', hpre'T,
          ?_, ?_⟩
        · rw [compressLoop_cons, if_neg (by rw [hmiss]; simp)]
          simp only [hc, if_pos hsz]
          rw [hloop]
        · intro h
          obtain ⟨h1, _⟩ := hpre'e h
          simp at h1
        · intro a ha
          rcases List.mem_cons.mp ha with rfl | ha
          · omega
          · exact hbound a ha
      · -- insert `pre ++ [x]` at code `sz`
        have hins : insertA T (pre ++ [x]) sz = T ++ [(pre ++ [x], sz)] :=
          insertA_of_not_mem _ hfresh
        obtain ⟨codes, T', sz', pre', hloop, hvals', hle, hcap', hpre'T,
          hpre'e, hbound⟩ :=
          ih (insertA T (pre ++ [x]) sz) (sz + 1) [x]
            (by rw [hins]; simp [hvals, List.range_succ])
            (fun a ha =>
              find?_insertA_isSome _ _
                (hsingles a (List.mem_cons_of_mem _ ha)))
            (Or.inr (find?_insertA_isSome _ _
              (hsingles x (List.mem_cons_self _ _))))
        refine ⟨c :: codes, T', sz', pre', ?_, hvals', by omega, ?_, hpre'T,
          ?_, ?_⟩
        · rw [compressLoop_cons, if_neg (by rw [hmiss]; simp)]
          simp only [hc, if_neg hsz]
          rw [hloop]
        · intro hszM
          apply hcap'
          simp only [not_lt] at hsz
          unfold max_table_size at *
          omega
        · intro h
          obtain ⟨h1, _⟩ := hpre'e h
          simp at h1
        · intro a ha
          rcases List.mem_cons.mp ha with rfl | ha
          · omega
          · exact hbound a ha

/-- `compress` on a non-empty input succeeds, returns the untouched initial
table, and (when the alphabet fits the code space) emits only codes below
`max_table_size`. -/
theorem compress_run (s : List α) (hne : s ≠ []) :
    ∃ codes, compress s = some (codes, mkInitialTable (uniqueChars s)) ∧
      ((uniqueChars s).length ≤ max_table_size →
        ∀ c ∈ codes, c < max_table_size) := by
  obtain ⟨x, rest, rfl⟩ : ∃ x rest, s = x :: rest := by
    cases s with
    | nil => exact absurd rfl hne
    | cons x rest => exact ⟨x, rest, rfl⟩
  set u := uniqueChars (x :: rest) with hu
  set T0 := mkInitialTable u with hT0
  have hxmem : x ∈ u := (mem_uniqueChars _ _).mpr (List.mem_cons_self _ _)
  obtain ⟨c0, u0, hucons⟩ : ∃ c0 u0, u = c0 :: u0 := by
    cases hcase : u with
    | nil => rw [hcase] at hxmem; simp at hxmem
    | cons c0 u0 => exact ⟨c0, u0, rfl⟩
  have htsize : tableSize T0 = some u.length := by
    rw [hT0, hucons]
    exact tableSize_mkInitialTable c0 u0
  have hvals0 : T0.map Prod.snd = List.range u.length := by
    rw [hT0]
    unfold mkInitialTable
    rw [mkTableFrom_map_snd, ← List.range_eq_range']
  have hsingles0 : ∀ c ∈ x :: rest, (find? T0 [c]).isSome = true := by
    intro c hc
    rw [hT0]
    unfold mkInitialTable
    exact find?_mkTableFrom_isSome _ _ ((mem_uniqueChars _ _).mpr hc)
  obtain ⟨codes, T', sz', pre', hloop, hvals', hle, hcap', hpre'T, hpre'e,
    hbound⟩ := compressLoop_run (x :: rest) T0 u.length [] hvals0 hsingles0
      (Or.inl rfl)
  have hpre' : pre' ≠ [] := by
    intro h
    obtain ⟨_, h2⟩ := hpre'e h
    simp at h2
  have hfcS : (find? T' pre').isSome = true := by
    rcases hpre'T with h | h
    · exact absurd h hpre'
    · exact h
  obtain ⟨fc, hfc⟩ := Option.isSome_iff_exists.mp hfcS
  have hfcb : fc < sz' := by
    have : fc ∈ T'.map Prod.snd := List.mem_map_of_mem _ (find?_mem hfc)
    rw [hvals', List.mem_range] at this
    exact this
  refine ⟨codes ++ [fc], ?_, ?_⟩
  · simp only [compress]
    rw [← hu, ← hT0]
    simp only [htsize, hloop]
    rw [if_neg hpre']
    simp only [hfc]
  · intro hcap c hc
    rcases List.mem_append.mp hc with h | h
    · exact lt_of_lt_of_le (hbound c h) (hcap' hcap)
    · simp at h
      subst h
      exact lt_of_lt_of_le hfcb (hcap' hcap)

theorem compress_isSome (s : List α) (hne : s ≠ []) :
    (compress s).isSome = true := by
  obtain ⟨codes, hc, _⟩ := compress_run s hne
  rw [hc]
  rfl

/-! ### Decoder error characterization -/

theorem snd_foldl_insertA {κ : Type} (t : List (κ × Nat)) :
    ∀ (acc : List (Nat × κ)) {p : κ},
    p ∈ ((t.foldl (fun acc q => insertA acc q.2 q.1) acc).map Prod.snd) →
    p ∈ acc.map Prod.snd ∨ p ∈ t.map Prod.fst := by
  induction t with
  | nil =>
    intro acc p h
    exact Or.inl h
  | cons q t ih =>
    intro acc p h
    obtain ⟨k, v⟩ := q
    simp only [List.foldl_cons] at h
    rcases ih _ h with h' | h'
    · rcases mem_snd_insertA h' with h'' | h''
      · exact Or.inl h''
      · exact Or.inr (by simp [h''])
    · exact Or.inr (by
        simp only [List.map_cons, List.mem_cons]
        exact Or.inr h')

theorem mem_snd_reverseTable {κ : Type} {t : List (κ × Nat)} {p : κ}
    (h : p ∈ (reverseTable t).map Prod.snd) : p ∈ t.map Prod.fst := by
  rcases snd_foldl_insertA t [] h with h' | h'
  · simp at h'
  · exact h'

/-- The decode loop succeeds exactly when `goodCodes` accepts the code
stream: every code is a key of the working table at the point it is
processed, or equals the `table_size` counter at that point (provided all
stored strings are non-empty, as they are whenever the initial table's keys
are genuine symbols). -/
theorem uncompressLoop_isSome_iff (codes : List Nat) :
    ∀ (R : List (Nat × List α)) (size : Nat) (prev : List α),
    (∀ p ∈ R.map Prod.snd, p ≠ []) → prev ≠ [] →
    ((uncompressLoop R size prev codes).isSome = true ↔
      goodCodes R size prev codes = true) := by
  induction codes with
  | nil =>
    intro R size prev _ _
    simp [uncompressLoop, goodCodes]
  | cons c rest ih =>
    intro R size prev hvne hprev
    have hvne' : ∀ (o : α) (os : List α),
        ∀ p ∈ (insertA R size (prev ++ [o])).map Prod.snd, p ≠ [] := by
      intro o os p hp
      rcases mem_snd_insertA hp with h | h
      · exact hvne p h
      · rw [h]
        simp
    cases hf : find? R c with
    | some out =>
      have houtne : out ≠ [] :=
        hvne out (List.mem_map_of_mem _ (find?_mem hf))
      obtain ⟨o, os, rfl⟩ : ∃ o os, out = o :: os := by
        cases out with
        | nil => exact absurd rfl houtne
        | cons o os => exact ⟨o, os, rfl⟩
      have hdec : decodeOut? R size prev c = some (o :: os) := by
        unfold decodeOut?
        rw [hf]
      have htake : (o :: os).take 1 = [o] := by simp
      constructor
      · intro h
        simp only [uncompressLoop, hdec] at h
        simp only [goodCodes, hf, htake]
        cases hrec : uncompressLoop (insertA R size (prev ++ [o]))
            (size + 1) (o :: os) rest with
        | none => rw [hrec] at h; simp at h
        | some v =>
          exact (ih _ _ _ (hvne' o os) (by simp)).mp (by rw [hrec]; rfl)
      · intro h
        simp only [goodCodes, hf, htake] at h
        simp only [uncompressLoop, hdec]
        have := (ih (insertA R size (prev ++ [o])) (size + 1) (o :: os)
          (hvne' o os) (by simp)).mpr h
        cases hrec : uncompressLoop (insertA R size (prev ++ [o]))
            (size + 1) (o :: os) rest with
        | none => rw [hrec] at this; simp at this
        | some v => obtain ⟨a, b, cc⟩ := v; simp
    | none =>
      by_cases hcs : c = size
      · obtain ⟨p, ps, rfl⟩ : ∃ p ps, prev = p :: ps := by
          cases prev with
          | nil => exact absurd rfl hprev
          | cons p ps => exact ⟨p, ps, rfl⟩
        have hdec : decodeOut? R size (p :: ps) c =
            some ((p :: ps) ++ [p]) := by
          unfold decodeOut?
          rw [hf, if_pos hcs]
        have htake : ((p :: ps) : List α).take 1 = [p] := by simp
        constructor
        · intro h
          simp only [uncompressLoop, hdec, List.cons_append] at h
          simp only [goodCodes, hf, if_pos hcs, htake]
          cases hrec : uncompressLoop
              (insertA R size ((p :: ps) ++ [p])) (size + 1)
              ((p :: ps) ++ [p]) rest with
          | none =>
            rw [show insertA R size (p :: (ps ++ [p])) =
                insertA R size ((p :: ps) ++ [p]) from by simp] at h
            rw [show (p :: (ps ++ [p])) = ((p :: ps) ++ [p]) from by
              simp] at h
            rw [hrec] at h
            simp at h
          | some v =>
            refine (ih _ _ _ ?_ (by simp)).mp (by rw [hrec]; rfl)
            intro q hq
            rcases mem_snd_insertA hq with h' | h'
            · exact hvne q h'
            · rw [h']; simp
        · intro h
          simp only [goodCodes, hf, if_pos hcs, htake] at h
          simp only [uncompressLoop, hdec, List.cons_append]
          have hne2 : ∀ q ∈ (insertA R size ((p :: ps) ++ [p])).map
              Prod.snd, q ≠ [] := by
            intro q hq
            rcases mem_snd_insertA hq with h' | h'
            · exact hvne q h'
            · rw [h']; simp
          have := (ih (insertA R size ((p :: ps) ++ [p])) (size + 1)
            ((p :: ps) ++ [p]) hne2 (by simp)).mpr h
          cases hrec : uncompressLoop (insertA R size ((p :: ps) ++ [p]))
              (size + 1) ((p :: ps) ++ [p]) rest with
          | none => rw [hrec] at this; simp at this
          | some v =>
            rw [show insertA R size (p :: (ps ++ [p])) =
                insertA R size ((p :: ps) ++ [p]) from by simp]
            rw [show (p :: (ps ++ [p])) = ((p :: ps) ++ [p]) from by simp]
            rw [hrec]
            obtain ⟨a, b, cc⟩ := v
            simp
      · have hdec : decodeOut? R size prev c = none := by
          unfold decodeOut?
          rw [hf, if_neg hcs]
        constructor
        · intro h
          simp only [uncompressLoop, hdec] at h
          simp at h
        · intro h
          simp only [goodCodes, hf, if_neg hcs] at h
          simp at h

/-- Success/failure of `uncompress` on a non-empty code list over a table
with genuine (non-empty) symbol keys: the first code must be a key of the
reversed table, and every later code must pass the key-or-counter check. -/
theorem uncompress_isSome_iff (c : Nat) (rest : List Nat)
    (t : List (List α × Nat)) (sz : Nat)
    (hsz : tableSize t = some sz)
    (hkeys : ∀ k ∈ t.map Prod.fst, k ≠ []) :
    (uncompress (c :: rest) t).isSome = true ↔
      ∃ p, find? (reverseTable t) c = some p ∧
        goodCodes (reverseTable t) sz p rest = true := by
  have hvne : ∀ p ∈ (reverseTable t).map Prod.snd, p ≠ [] :=
    fun p hp => hkeys p (mem_snd_reverseTable hp)
  cases hf : find? (reverseTable t) c with
  | none =>
    simp only [uncompress, hsz, hf]
    constructor
    · intro h
      simp at h
    · rintro ⟨p, hp, _⟩
      exact Option.noConfusion hp
  | some p =>
    have hpne : p ≠ [] :=
      hvne p (List.mem_map_of_mem _ (find?_mem hf))
    simp only [uncompress, hsz, hf]
    constructor
    · intro h
      refine ⟨p, rfl, ?_⟩
      refine (uncompressLoop_isSome_iff rest _ sz p hvne hpne).mp ?_
      cases hrec : uncompressLoop (reverseTable t) sz p rest with
      | none => rw [hrec] at h; simp at h
      | some v => rfl
    · rintro ⟨p', hp', hgood⟩
      injection hp' with hpp
      rw [← hpp] at hgood
      have := (uncompressLoop_isSome_iff rest _ sz p hvne hpne).mpr hgood
      cases hrec : uncompressLoop (reverseTable t) sz p rest with
      | none => rw [hrec] at this; simp at this
      | some v =>
        obtain ⟨a, b, cc⟩ := v
        rfl

/-! ### Binary codec lemmas -/

theorem packH_eq {n : Nat} (h : n < 65536) :
    packH n = some [n % 256, n / 256] := by
  unfold packH
  rw [if_pos h]

theorem readH_eq (n : Nat) (bs : List Nat) :
    readH ((n % 256) :: (n / 256) :: bs) = some (n, bs) := by
  show some (n % 256 + 256 * (n / 256), bs) = some (n, bs)
  rw [Nat.mod_add_div]

/-- Writing then re-reading the table entries: the writer succeeds under the
width bounds, and the reader rebuilds exactly the same entries (in order)
after any already-read prefix `acc`. -/
theorem entries_roundtrip (t : List (Char × Nat)) :
    ∀ (acc : List (Char × Nat)),
    (∀ c ∈ t.map Prod.fst, c.toNat < 65536) →
    (∀ v ∈ t.map Prod.snd, v < 256) →
    ((acc.map Prod.fst ++ t.map Prod.fst).Nodup) →
    ∃ eb, serializeEntries t = some eb ∧
      ∀ tailbs, readEntriesAux t.length acc (eb ++ tailbs) =
        some (acc ++ t, tailbs) := by
  induction t with
  | nil =>
    intro acc _ _ _
    exact ⟨[], rfl, fun tailbs => by simp [readEntriesAux]⟩
  | cons p t ih =>
    intro acc hords hvals hnd
    obtain ⟨c, v⟩ := p
    have hc : c.toNat < 65536 := hords c (by simp)
    have hv : v < 256 := hvals v (by simp)
    have hnd' : ((acc ++ [(c, v)]).map Prod.fst ++ t.map Prod.fst).Nodup := by
      simp only [List.map_append, List.append_assoc]
      simpa using hnd
    obtain ⟨ebt, hser, hread⟩ := ih (acc ++ [(c, v)])
      (fun a ha => hords a (by simp [ha]))
      (fun a ha => hvals a (by simp [ha])) hnd'
    have hcacc : c ∉ acc.map Prod.fst := by
      rw [List.nodup_append] at hnd
      intro hmem
      exact hnd.2.2 hmem (by simp)
    have hpb : packB v = some [v] := by
      unfold packB
      rw [if_pos hv]
    refine ⟨[c.toNat % 256, c.toNat / 256] ++ [v] ++ ebt, ?_, ?_⟩
    · simp only [serializeEntries, packH_eq hc, hpb, hser]
    · intro tailbs
      have hbytes : (([c.toNat % 256, c.toNat / 256] ++ [v] ++ ebt) ++
          tailbs) =
          (c.toNat % 256) :: (c.toNat / 256) :: (v :: (ebt ++ tailbs)) := by
        simp
      rw [hbytes]
      show readEntriesAux (t.length + 1) acc _ = _
      simp only [readEntriesAux, readH_eq, readByte]
      rw [Char.ofNat_toNat, insertA_of_not_mem _ hcacc]
      rw [hread tailbs]
      simp

theorem codes_roundtrip (codes : List Nat)
    (h : ∀ x ∈ codes, x < 65536) :
    ∃ cb, serializeCodes codes = some cb ∧ readCodes cb = some codes := by
  induction codes with
  | nil => exact ⟨[], rfl, rfl⟩
  | cons c rest ih =>
    obtain ⟨cbt, hser, hread⟩ := ih (fun x hx => h x (by simp [hx]))
    have hc : c < 65536 := h c (by simp)
    refine ⟨[c % 256, c / 256] ++ cbt, ?_, ?_⟩
    · simp only [serializeCodes, packH_eq hc, hser]
    · show readCodes ((c % 256) :: (c / 256) :: cbt) = some (c :: rest)
      simp only [readCodes, hread, Nat.mod_add_div]


/-- Full binary round trip: for a non-empty table with distinct keys whose
highest code is `count - 1` (dense codes), at most 256 entries, 16-bit
symbols and 16-bit codes, writing then reading restores the exact
(table, codes) pair. -/
theorem serialize_deserialize (t : List (Char × Nat)) (codes : List Nat)
    (hne : t ≠ [])
    (hnd : (t.map Prod.fst).Nodup)
    (hmax : maxValA t = some (t.length - 1))
    (hlen : t.length ≤ 256)
    (hords : ∀ c ∈ t.map Prod.fst, c.toNat < 65536)
    (hcodes : ∀ x ∈ codes, x < 65536) :
    ∃ bs, serializeTableCodes t codes = some bs ∧
      deserialize bs = some (t, codes) := by
  have hlen1 : 1 ≤ t.length := by
    cases t with
    | nil => exact absurd rfl hne
    | cons p l => simp
  have hvals : ∀ v ∈ t.map Prod.snd, v < 256 := by
    intro v hv
    obtain ⟨⟨k, v'⟩, hkm, hkv⟩ := List.mem_map.mp hv
    simp only at hkv
    subst hkv
    have := le_maxValA_of_mem hmax hkm
    omega
  obtain ⟨eb, hserE, hreadE⟩ :=
    entries_roundtrip t [] hords hvals (by simpa using hnd)
  obtain ⟨cb, hserC, hreadC⟩ := codes_roundtrip codes hcodes
  have hts : t.length - 1 < 256 := by omega
  have hpb : packB (t.length - 1) = some [t.length - 1] := by
    unfold packB
    rw [if_pos hts]
  refine ⟨[t.length - 1] ++ eb ++ cb, ?_, ?_⟩
  · simp only [serializeTableCodes, hmax, hpb, hserE, hserC]
  · have hbytes : ([t.length - 1] ++ eb ++ cb) =
        (t.length - 1) :: (eb ++ cb) := by simp
    rw [hbytes]
    simp only [deserialize, readByte]
    rw [show t.length - 1 + 1 = t.length from by omega]
    rw [hreadE cb]
    simp only [List.nil_append]
    rw [hreadC]

theorem maxValA_eq_of_snd_eq {κ κ' : Type} :
    ∀ (l1 : List (κ × Nat)) (l2 : List (κ' × Nat)),
    l1.map Prod.snd = l2.map Prod.snd → maxValA l1 = maxValA l2 := by
  intro l1
  induction l1 with
  | nil =>
    intro l2 h
    rw [List.eq_nil_of_map_eq_nil h.symm]
    rfl
  | cons p t ih =>
    intro l2 h
    obtain ⟨k, v⟩ := p
    cases l2 with
    | nil => simp at h
    | cons q t2 =>
      obtain ⟨k2, v2⟩ := q
      simp only [List.map_cons, List.cons.injEq] at h
      obtain ⟨rfl, h2⟩ := h
      simp only [maxValA]
      rw [ih t2 h2]

theorem tableToChars_mkTableFrom (u : List Char) : ∀ (i : Nat),
    ∃ tc, tableToChars (mkTableFrom u i) = some tc ∧
      tc.map Prod.fst = u ∧
      tc.map Prod.snd = (mkTableFrom u i).map Prod.snd := by
  induction u with
  | nil => exact fun i => ⟨[], rfl, rfl, rfl⟩
  | cons c t ih =>
    intro i
    obtain ⟨tc, htc, hfst, hsnd⟩ := ih (i + 1)
    refine ⟨(c, i) :: tc, ?_, by simp [hfst], by simp [mkTableFrom, hsnd]⟩
    simp only [mkTableFrom, tableToChars, keyChar?, htc]

theorem serializeEntries_none_of_big :
    ∀ (t : List (Char × Nat)),
    (∃ c ∈ t.map Prod.fst, 65536 ≤ c.toNat) →
    serializeEntries t = none := by
  intro t h
  induction t with
  | nil => simp at h
  | cons p t ih =>
    obtain ⟨c, v⟩ := p
    obtain ⟨c', hc'm, hc'big⟩ := h
    simp only [List.map_cons, List.mem_cons] at hc'm
    rcases hc'm with rfl | hc'm
    · have hph : packH c'.toNat = none := by
        unfold packH
        rw [if_neg (by omega)]
      cases hb : packB v <;> cases hs : serializeEntries t <;>
        simp [serializeEntries, hph, hb, hs]
    · have hser : serializeEntries t = none := ih ⟨c', hc'm, hc'big⟩
      cases hh : packH c.toNat <;> cases hb : packB v <;>
        simp [serializeEntries, hh, hb, hser]

theorem serializeTableCodes_none_of_big_ts (t : List (Char × Nat))
    (codes : List Nat) {m : Nat} (hmax : maxValA t = some m)
    (hbig : 256 ≤ m) : serializeTableCodes t codes = none := by
  have hpb : packB m = none := by
    unfold packB
    rw [if_neg (by omega)]
  cases he : serializeEntries t <;> cases hc : serializeCodes codes <;>
    simp [serializeTableCodes, hmax, hpb, he, hc]

theorem serializeTableCodes_none_of_entries (t : List (Char × Nat))
    (codes : List Nat) (he : serializeEntries t = none) :
    serializeTableCodes t codes = none := by
  cases hm : maxValA t with
  | none => simp [serializeTableCodes, hm]
  | some m =>
    cases hp : packB m <;> cases hc : serializeCodes codes <;>
      simp [serializeTableCodes, hm, hp, he, hc]

theorem compress_nil : compress ([] : List α) = none := rfl

theorem compressToFileBytes_nil : compressToFileBytes [] = none := rfl

/-- Exact success condition of the write pipeline: the input must be
non-empty (else `compress` fails), have at most 256 distinct symbols (the
1-byte field stores the highest code, i.e. count - 1), and use only symbols
with code points below 2^16 (the 2-byte symbol field). -/
theorem compressToFileBytes_isSome_iff (s : List Char) :
    (compressToFileBytes s).isSome = true ↔
      s ≠ [] ∧ (uniqueChars s).length ≤ 256 ∧ ∀ c ∈ s, c.toNat < 65536 := by
  have main : s ≠ [] → ∃ codes tc,
      compressToFileBytes s = serializeTableCodes tc codes ∧
      tc.map Prod.fst = uniqueChars s ∧
      maxValA tc = some ((uniqueChars s).length - 1) ∧
      tc.length = (uniqueChars s).length ∧
      ((uniqueChars s).length ≤ max_table_size →
        ∀ c ∈ codes, c < max_table_size) := by
    intro hne
    obtain ⟨codes, hcomp, hbound⟩ := compress_run s hne
    obtain ⟨tc, htc, hfst, hsnd⟩ := tableToChars_mkTableFrom (uniqueChars s) 0
    have htc' : tableToChars (mkInitialTable (uniqueChars s)) = some tc := by
      unfold mkInitialTable
      exact htc
    have hune : uniqueChars s ≠ [] := by
      rw [ne_eq, uniqueChars_eq_nil_iff]
      exact hne
    obtain ⟨c0, u0, hucons⟩ : ∃ c0 u0, uniqueChars s = c0 :: u0 := by
      cases hcase : uniqueChars s with
      | nil => exact absurd hcase hune
      | cons c0 u0 => exact ⟨c0, u0, rfl⟩
    have hmaxtc : maxValA tc = some ((uniqueChars s).length - 1) := by
      rw [maxValA_eq_of_snd_eq tc (mkTableFrom (uniqueChars s) 0) hsnd]
      rw [hucons, maxValA_mkTableFrom]
      simp
    refine ⟨codes, tc, ?_, hfst, hmaxtc, ?_, hbound⟩
    · simp only [compressToFileBytes, hcomp, htc']
    · rw [← List.length_map tc Prod.fst, hfst]
  constructor
  · intro h
    have hne : s ≠ [] := by
      intro he
      rw [he, compressToFileBytes_nil] at h
      simp at h
    obtain ⟨codes, tc, heq, hfst, hmaxtc, hlen, _⟩ := main hne
    refine ⟨hne, ?_, ?_⟩
    · by_contra hgt
      push_neg at hgt
      rw [heq, serializeTableCodes_none_of_big_ts tc codes hmaxtc
        (by omega)] at h
      simp at h
    · intro c hc
      by_contra hbig
      push_neg at hbig
      have hcm : c ∈ tc.map Prod.fst := by
        rw [hfst]
        exact (mem_uniqueChars _ _).mpr hc
      rw [heq, serializeTableCodes_none_of_entries tc codes
        (serializeEntries_none_of_big tc ⟨c, hcm, hbig⟩)] at h
      simp at h
  · rintro ⟨hne, hcap, hords⟩
    obtain ⟨codes, tc, heq, hfst, hmaxtc, hlen, hbound⟩ := main hne
    have hune : uniqueChars s ≠ [] := by
      rw [ne_eq, uniqueChars_eq_nil_iff]
      exact hne
    have hlen1 : 1 ≤ (uniqueChars s).length := by
      cases hcase : uniqueChars s with
      | nil => exact absurd hcase hune
      | cons c0 u0 => simp
    have hndu : (tc.map Prod.fst).Nodup := by
      rw [hfst]
      exact uniqueChars_nodup s
    obtain ⟨bs, hser, _⟩ := serialize_deserialize tc codes
      (by intro he; rw [he] at hlen; simp at hlen; omega)
      hndu (by rw [hmaxtc, hlen]) (by omega)
      (by
        intro c hcm
        rw [hfst] at hcm
        exact hords c ((mem_uniqueChars _ _).mp hcm))
      (by
        intro x hx
        have := hbound (by unfold max_table_size; omega) x hx
        unfold max_table_size at this
        omega)
    rw [heq, hser]
    rfl

/-! ### Claim theorems -/

/-- C1 (counterexample): the round-trip law as stated fails at the empty
sequence: `compress ""` raises `ValueError` (from `max()` over the empty
table), so `uncompress (compress "")` is an error rather than `""`. -/
theorem lzw_roundtrip_fails_on_empty :
    (compress ([] : List Char)).bind (fun p => uncompress p.1 p.2) =
      none := rfl

/-- C1 (amended): for every non-empty symbol sequence over an alphabet of at
most `max_table_size` distinct symbols, `compress` succeeds and
`uncompress` applied to the returned (codes, initial table) pair
reconstructs the input exactly. -/
theorem lzw_roundtrip_nonempty {α : Type} [DecidableEq α] (s : List α)
    (hne : s ≠ []) (hcap : (uniqueChars s).length ≤ max_table_size) :
    ∃ codes t, compress s = some (codes, t) ∧ uncompress codes t = some s :=
  compress_uncompress_of_ne_nil s hne hcap

/-- C1 witness: the amended round trip at the concrete input "abab". -/
theorem lzw_roundtrip_nonempty_witness :
    (['a', 'b', 'a', 'b'] : List Char) ≠ [] ∧
    (uniqueChars (['a', 'b', 'a', 'b'] : List Char)).length ≤
      max_table_size ∧
    ∃ codes t, compress (['a', 'b', 'a', 'b'] : List Char) =
      some (codes, t) ∧ uncompress codes t = some ['a', 'b', 'a', 'b'] :=
  ⟨by decide, by decide,
    lzw_roundtrip_nonempty ['a', 'b', 'a', 'b'] (by decide) (by decide)⟩

/-- C2 (counterexample): a first code equal to the next-assignable counter
(code 1 with table {'a': 0}, so `table_size = 1`) is not an error according
to the claim, yet `uncompress` raises: the special case is only checked for
codes after the first, and an unknown first code hits a bare `KeyError`. -/
theorem uncompress_first_code_next_assignable_errors :
    tableSize [((['a'] : List Char), 0)] = some 1 ∧
    uncompress [1] [((['a'] : List Char), 0)] = none := by decide

/-- C2 (amended): over a non-empty code list and a table with genuine
(non-empty) symbol keys, `uncompress` succeeds exactly when the first code
is a key of the reversed initial table (the next-assignable escape never
applies to it) and every later code, at the point it is processed, is
either a key of the working table or equal to the table-size counter. -/
theorem uncompress_error_characterization {α : Type} [DecidableEq α]
    (c : Nat) (rest : List Nat) (t : List (List α × Nat)) (sz : Nat)
    (hsz : tableSize t = some sz)
    (hkeys : ∀ k ∈ t.map Prod.fst, k ≠ []) :
    (uncompress (c :: rest) t).isSome = true ↔
      ∃ p, find? (reverseTable t) c = some p ∧
        goodCodes (reverseTable t) sz p rest = true :=
  uncompress_isSome_iff c rest t sz hsz hkeys

/-- C2 witness: the characterization at the concrete stream [0, 1] over the
table {'a': 0} (code 1 is the next-assignable special case there). -/
theorem uncompress_error_characterization_witness :
    tableSize [((['a'] : List Char), 0)] = some 1 ∧
    (∀ k ∈ [((['a'] : List Char), 0)].map Prod.fst, k ≠ []) ∧
    ((uncompress [0, 1] [((['a'] : List Char), 0)]).isSome = true ↔
      ∃ p, find? (reverseTable [((['a'] : List Char), 0)]) 0 = some p ∧
        goodCodes (reverseTable [((['a'] : List Char), 0)]) 1 p [1] =
          true) :=
  ⟨by decide, by decide,
    uncompress_error_characterization 0 [1] [(['a'], 0)] 1 (by decide)
      (by decide)⟩

/-- C3 (code bug, evaluation at the failing input): with the table
{'a': 0, 'b': 65535} the decoder counter starts at 65536 = max_table_size,
yet decoding [0, 0] still inserts a new entry (65536 ↦ "aa") into the
working table — the decode pass has no ceiling check, unlike lines 94-99 of
the encode pass. -/
theorem uncompress_adds_entry_past_max_table_size :
    tableSize [((['a'] : List Char), 0), (['b'], 65535)] =
      some max_table_size ∧
    uncompress [0, 0] [((['a'] : List Char), 0), (['b'], 65535)] =
      some ['a', 'a'] ∧
    uncompressLoop
      (reverseTable [((['a'] : List Char), 0), (['b'], 65535)])
      65536 ['a'] [0] =
      some (['a'], [(0, ['a']), (65535, ['b']), (65536, ['a', 'a'])],
        65537) := by decide

/-- C4 (counterexample): the empty table has "at most 255 entries", yet
serialization raises (`max()` over the empty dict) instead of producing a
byte stream — the format cannot represent zero entries, since the reader
always consumes `table_size + 1` of them. -/
theorem serialize_empty_table_fails :
    serializeTableCodes ([] : List (Char × Nat)) [] = none := rfl

/-- C4 (amended): for every non-empty table of at most 255 entries with
distinct keys, dense codes (highest code = count - 1), symbol code points
below 2^16, and any code sequence of 2-byte values, serializing and then
deserializing restores exactly the same (table, codes) pair. -/
theorem binary_roundtrip_dense_nonempty (t : List (Char × Nat))
    (codes : List Nat) (hne : t ≠ []) (hnd : (t.map Prod.fst).Nodup)
    (hmax : maxValA t = some (t.length - 1)) (hlen : t.length ≤ 255)
    (hords : ∀ c ∈ t.map Prod.fst, c.toNat < 65536)
    (hcodes : ∀ x ∈ codes, x < 65536) :
    ∃ bs, serializeTableCodes t codes = some bs ∧
      deserialize bs = some (t, codes) :=
  serialize_deserialize t codes hne hnd hmax (by omega) hords hcodes

/-- C4 witness: the binary round trip at the one-entry table {'a': 0} with
code stream [7]. -/
theorem binary_roundtrip_dense_nonempty_witness :
    ([(('a' : Char), 0)] : List (Char × Nat)) ≠ [] ∧
    maxValA [(('a' : Char), 0)] = some 0 ∧
    ∃ bs, serializeTableCodes [(('a' : Char), 0)] [7] = some bs ∧
      deserialize bs = some ([(('a' : Char), 0)], [7]) :=
  ⟨by decide, by decide,
    binary_roundtrip_dense_nonempty [('a', 0)] [7] (by decide) (by decide)
      (by decide) (by decide) (by decide) (by decide)⟩

/-- C5 (code bug, evaluation at the failing input): `compress ""` does not
return an empty code sequence and empty table — it raises `ValueError`,
because line 63 takes `max()` over the empty table before the loop whose
final-prefix emission would be skipped is ever reached. -/
theorem compress_empty_input_raises : compress ([] : List Char) = none :=
  rfl

/-- C6 (code bug, evaluation at the failing input): `uncompress [] {}` does
not return the empty string — it raises `ValueError` at the `max()` over
the empty table (and would raise `IndexError` at `pop(0)` on the empty
list even with a non-empty table). -/
theorem uncompress_empty_raises :
    uncompress ([] : List Nat) ([] : List (List Char × Nat)) = none := rfl

/-- C7 (confirmed): `compress` never fails on a non-empty input: both
lookups of `table[prefix]` (on a working-table miss and for the final
emission) always find their key, because every single symbol of the input
is in the initial table. -/
theorem compress_never_fails_nonempty {α : Type} [DecidableEq α]
    (s : List α) (hne : s ≠ []) : (compress s).isSome = true :=
  compress_isSome s hne

/-- C7 witness: `compress` succeeds on the concrete input "aba". -/
theorem compress_never_fails_nonempty_witness :
    (['a', 'b', 'a'] : List Char) ≠ [] ∧
    (compress (['a', 'b', 'a'] : List Char)).isSome = true :=
  ⟨by decide, compress_never_fails_nonempty ['a', 'b', 'a'] (by decide)⟩

/-- C8 (confirmed): whenever `compress` returns, the returned table is the
initial table built before the encoding loop (unchanged by the working
table's growth), with exactly one singleton-string entry per distinct
symbol of the input and codes dense from 0 to unique_count - 1. -/
theorem initial_table_dense_one_entry_per_symbol {α : Type}
    [DecidableEq α] (s : List α) (codes : List Nat)
    (t : List (List α × Nat)) (h : compress s = some (codes, t)) :
    t = mkInitialTable (uniqueChars s) ∧
    t.map Prod.fst = (uniqueChars s).map (fun c => [c]) ∧
    t.map Prod.snd = List.range (uniqueChars s).length ∧
    (uniqueChars s).Nodup ∧ (∀ c, c ∈ uniqueChars s ↔ c ∈ s) := by
  have hne : s ≠ [] := by
    intro he
    rw [he, compress_nil] at h
    exact Option.noConfusion h
  obtain ⟨codes2, hc, _⟩ := compress_run s hne
  rw [h] at hc
  injection hc with hpair
  have ht : t = mkInitialTable (uniqueChars s) :=
    congrArg Prod.snd hpair
  refine ⟨ht, ?_, ?_, uniqueChars_nodup s, fun c => mem_uniqueChars s c⟩
  · rw [ht]
    unfold mkInitialTable
    exact mkTableFrom_map_fst _ 0
  · rw [ht]
    unfold mkInitialTable
    rw [mkTableFrom_map_snd, ← List.range_eq_range']

/-- C8 witness: the initial-table shape at the concrete input "ab". -/
theorem initial_table_dense_one_entry_per_symbol_witness :
    compress (['a', 'b'] : List Char) =
      some ([0, 1], [(['a'], 0), (['b'], 1)]) ∧
    ([((['a'] : List Char), 0), (['b'], 1)] =
        mkInitialTable (uniqueChars ['a', 'b']) ∧
      [((['a'] : List Char), 0), (['b'], 1)].map Prod.fst =
        (uniqueChars (['a', 'b'] : List Char)).map (fun c => [c]) ∧
      [((['a'] : List Char), 0), (['b'], 1)].map Prod.snd =
        List.range (uniqueChars (['a', 'b'] : List Char)).length ∧
      (uniqueChars (['a', 'b'] : List Char)).Nodup ∧
      (∀ c, c ∈ uniqueChars (['a', 'b'] : List Char) ↔
        c ∈ (['a', 'b'] : List Char))) :=
  ⟨by decide,
    initial_table_dense_one_entry_per_symbol ['a', 'b'] [0, 1] _
      (by decide)⟩

/-- C9 (counterexample): an input with a single distinct symbol — well
within the claimed 255-symbol cap — fails to serialize when that symbol's
code point does not fit the 2-byte symbol field (here U+1F600), so
serialization does not succeed "exactly" for inputs within the cap. -/
theorem file_pipeline_fails_on_big_codepoint :
    (uniqueChars [Char.ofNat 128512]).length = 1 ∧
    compressToFileBytes [Char.ofNat 128512] = none := by decide

/-- C9 (amended): the 1-byte table-size field stores the highest assigned
code (count - 1), so the write pipeline succeeds exactly for non-empty
inputs with at most 256 distinct symbols — not 255 — all of whose code
points fit the 2-byte symbol field. -/
theorem file_pipeline_success_characterization (s : List Char) :
    (compressToFileBytes s).isSome = true ↔
      s ≠ [] ∧ (uniqueChars s).length ≤ 256 ∧ ∀ c ∈ s, c.toNat < 65536 :=
  compressToFileBytes_isSome_iff s

/-- C10 (counterexample): `uncompress` succeeds on ([0], {'a': 0}) but the
caller's `compressed_data` list is left empty — `pop(0)` removed its first
element, so the argument is not unchanged. -/
theorem uncompress_mutates_compressed_data :
    uncompress [0] [((['a'] : List Char), 0)] = some ['a'] ∧
    dataAfterUncompress [0] [((['a'] : List Char), 0)] = [] := by decide

/-- C10 (amended): the `table` argument is only rebound, never mutated, but
whenever `uncompress` succeeds the caller's `compressed_data` list has lost
its first element to `pop(0)`. -/
theorem uncompress_pops_first_code {α : Type} [DecidableEq α]
    (data : List Nat) (t : List (List α × Nat)) (r : List α)
    (h : uncompress data t = some r) :
    data ≠ [] ∧ dataAfterUncompress data t = data.tail := by
  cases hts : tableSize t with
  | none =>
    simp only [uncompress, hts] at h
    exact Option.noConfusion h
  | some sz =>
    cases data with
    | nil =>
      simp only [uncompress, hts] at h
      exact Option.noConfusion h
    | cons c rest =>
      refine ⟨by simp, ?_⟩
      simp [dataAfterUncompress, hts]

/-- C10 witness: the mutation fact at the concrete call
uncompress [0] {'a': 0}. -/
theorem uncompress_pops_first_code_witness :
    uncompress [0] [((['a'] : List Char), 0)] = some ['a'] ∧
    ([0] : List Nat) ≠ [] ∧
    dataAfterUncompress [0] [((['a'] : List Char), 0)] =
      ([0] : List Nat).tail :=
  ⟨by decide,
    uncompress_pops_first_code [0] [(['a'], 0)] ['a'] (by decide)⟩

end LZW
